import Mathlib

/-!
# Verification of the Lyrics.ai rhythmic-segmentation and lyric-validation core

A shallow embedding, in Lean 4, of the algorithmic core of the repository:

* `src/validator.py` — the "Gatekeeper" (`LyricValidator`): phonetic syllable
  counting, groove (stress-alignment) scoring, ARPABET→IPA normalisation,
  phonetic-similarity scoring, line validation and best-candidate selection.
* `src/audio_engine.py` — the `PivotFormatter`: duration derivation, splitting
  of long segments at energy valleys, the low-energy "breath" filter, stress /
  sustain / pitch-contour detection.

Modelling conventions:

* Python floats are modelled as `ℚ` (exact arithmetic; the source performs only
  field operations and comparisons on them, apart from the square roots noted
  below).
* External collaborators are modelled as parameters, never reimplemented:
  the `g2p_en` grapheme-to-phoneme model (a candidate text is represented by
  the phoneme list `g2p` returns for it), `librosa.feature.rms` and
  `librosa.pyin` (their numeric output arrays are taken as inputs), `np.sqrt`
  (an opaque function parameter `sqrt_fn`; no property of it is ever needed),
  and the Allosaurus phoneme recogniser (its per-segment strings are inputs).
* Python `int(x)` truncation toward zero is `pyInt`; `np.mean` over `ℚ` is
  `npMean` (Lean's `/ 0 = 0` convention only ever applies to empty lists,
  which the source guards against where it matters); `np.median` is
  `np_median`; `np.max` is `npMax` (the source only applies it to non-empty
  arrays).
* Python's `list.sort(key=..., reverse=True)` is a stable descending sort; it
  is modelled by the stable insertion sort `sortDesc` (stable sorting is
  uniquely determined by the key, so any stable implementation is faithful).
-/

/-! ## Python / NumPy primitives -/

/-- The whitespace characters recognised by Python's `str.strip()` (ASCII
whitespace; the exotic Unicode space classes do not occur in the data the
source handles). -/
def pyIsSpace (c : Char) : Bool :=
  c == ' ' || c == '\t' || c == '\n' || c == '\r' || c == Char.ofNat 11 || c == Char.ofNat 12

/-- Python `str.lower()`, per character (ASCII, which is all the source ever
lowercases: unmapped ARPABET tokens). -/
def pyLower (s : String) : String :=
  String.mk (s.toList.map Char.toLower)

/-- Python `int(x)` on a float: truncation toward zero. -/
def pyInt (q : ℚ) : Int :=
  if q < 0 then -(Rat.floor (-q)) else Rat.floor q

/-- Model of `np.mean` of a rational list (sum divided by length; `0` on `[]`). -/
def npMean (l : List ℚ) : ℚ :=
  l.sum / l.length

/-- Model of `np.max` of a rational list (the source only applies it to non-empty
arrays; the `0` default for `[]` is never reached on those). -/
def npMax : List ℚ → ℚ
  | [] => 0
  | x :: xs => xs.foldl max x

/-- Ascending insertion of one element (helper for `np.median`). -/
def insertAsc (x : ℚ) : List ℚ → List ℚ
  | [] => [x]
  | y :: ys => if x ≤ y then x :: y :: ys else y :: insertAsc x ys

/-- Ascending sort (helper for `np.median`). -/
def sortAscQ : List ℚ → List ℚ
  | [] => []
  | x :: xs => insertAsc x (sortAscQ xs)

/-- Model of `np.median`: middle element of the sorted list, or the mean of the two
middle elements for even length. -/
def np_median (l : List ℚ) : ℚ :=
  let s := sortAscQ l
  let n := l.length
  if n = 0 then 0
  else if n % 2 = 1 then s.getD (n / 2) 0
  else (s.getD (n / 2 - 1) 0 + s.getD (n / 2) 0) / 2

/-! ## Validator: phonetic tables (`src/validator.py`) -/

/-- Model of `ARPABET_TO_IPA` from `src/validator.py`: simplified ARPABET → IPA map. -/
def arpabet_to_ipa : List (String × String) :=
  [("AA", "ɑ"), ("AE", "æ"), ("AH", "ʌ"), ("AO", "ɔ"), ("AW", "aʊ"),
   ("AY", "aɪ"), ("EH", "ɛ"), ("ER", "ɝ"), ("EY", "eɪ"), ("IH", "ɪ"),
   ("IY", "i"), ("OW", "oʊ"), ("OY", "ɔɪ"), ("UH", "ʊ"), ("UW", "u"),
   ("B", "b"), ("CH", "tʃ"), ("D", "d"), ("DH", "ð"), ("F", "f"),
   ("G", "g"), ("HH", "h"), ("JH", "dʒ"), ("K", "k"), ("L", "l"),
   ("M", "m"), ("N", "n"), ("NG", "ŋ"), ("P", "p"), ("R", "r"),
   ("S", "s"), ("SH", "ʃ"), ("T", "t"), ("TH", "θ"), ("V", "v"),
   ("W", "w"), ("Y", "j"), ("Z", "z"), ("ZH", "ʒ")]

/-- Model of `PHONETIC_CLASSES` from `src/validator.py`: broad sound classes (sets of
strings; the two affricate entries are two-character strings). -/
def phonetic_classes : List (List String) :=
  [["ɑ", "æ", "ʌ", "a"],
   ["ɛ", "ɝ", "ɔ", "e", "o"],
   ["ɪ", "i", "ʊ", "u"],
   ["b", "p", "d", "t", "g", "k"],
   ["f", "v", "s", "z", "ʃ", "ʒ", "θ", "ð", "h"],
   ["m", "n", "ŋ"],
   ["l", "r", "w", "j"],
   ["tʃ", "dʒ"]]

/-! ## Validator: data structures -/

/-- Model of `Segment` from `src/audio_engine.py` (time values as `ℚ`). -/
structure Segment where
  time_start : ℚ
  duration : ℚ
  is_stressed : Bool
  is_sustained : Bool
  pitch_contour : String
  audio_phonemes : String
deriving DecidableEq, Repr

/-- Model of `ValidationResult` from `src/validator.py` (the purely diagnostic
human-readable `reason` string, built with float formatting, is omitted). -/
structure ValidationResult where
  is_valid : Bool
  score : ℚ
  groove_score : ℚ
  phonetic_score : ℚ
  syllable_count : Nat
  phonemes : List String
  stress_markers : List Nat
deriving DecidableEq, Repr

/-! ## Validator: syllable analysis -/

/-- The first stress digit (`0`/`1`/`2`) occurring in a phoneme, if any —
`STRESS_PATTERN.search` in `LyricValidator.extract_stress_markers`. -/
def stress_of_phoneme (p : String) : Option Nat :=
  (p.toList.find? (fun c => c == '0' || c == '1' || c == '2')).map
    (fun c => c.toNat - 48)

/-- Model of `LyricValidator.extract_stress_markers`: one stress level per phoneme that
carries a stress digit. -/
def extract_stress_markers (phonemes : List String) : List Nat :=
  phonemes.filterMap stress_of_phoneme

/-- The syllable count of `LyricValidator.count_syllables`: the number of
phonemes carrying a stress digit (the `g2p_en` call that produces the phoneme
list from raw text is the external collaborator). -/
def syllable_count_of (phonemes : List String) : Nat :=
  (extract_stress_markers phonemes).length

/-! ## Validator: groove score -/

/-- The point accumulation loop of `LyricValidator.calculate_groove_score`:
audio stressed & text primary → 2; audio stressed & text secondary → 1/2;
audio unstressed & text unstressed → 1; otherwise 0. -/
def groove_points : List (Nat × Bool) → ℚ
  | [] => 0
  | (t, a) :: rest =>
    (if a then
      (if t = 1 then 2 else if t = 2 then (1 : ℚ) / 2 else 0)
     else
      (if t = 0 then 1 else 0)) + groove_points rest

/-- Model of `LyricValidator.calculate_groove_score`. -/
def calculate_groove_score (text_stress : List Nat) (audio_stress : List Bool) : ℚ :=
  if text_stress.length ≠ audio_stress.length then 0
  else if text_stress = [] then 0
  else
    let stressed_count := (audio_stress.filter (fun s => s)).length
    let unstressed_count := audio_stress.length - stressed_count
    let max_points : ℚ := stressed_count * 2 + unstressed_count
    if max_points = 0 then 0
    else groove_points (text_stress.zip audio_stress) / max_points

/-- The per-pair point value as worded in the specification (used to state the
groove-score claim as a closed formula). -/
def groove_pair_value (t : Nat) (a : Bool) : ℚ :=
  if a ∧ t = 1 then 2
  else if a ∧ t = 2 then 1 / 2
  else if ¬a ∧ t = 0 then 1
  else 0

/-- The groove score as worded in the specification: sum of per-pair points
divided by `2·(stressed count) + 1·(unstressed count)`. -/
def specGrooveScore (text_stress : List Nat) (audio_stress : List Bool) : ℚ :=
  (((text_stress.zip audio_stress).map (fun p => groove_pair_value p.1 p.2)).sum) /
    (2 * ((audio_stress.filter (fun s => s)).length : ℚ) +
      ((audio_stress.filter (fun s => !s)).length : ℚ))

/-! ## Validator: phonetic score -/

/-- Python `phoneme.rstrip('012')`: drop trailing stress digits. -/
def rstrip_stress (s : String) : String :=
  String.mk ((s.toList.reverse.dropWhile (fun c => c == '0' || c == '1' || c == '2')).reverse)

/-- The single-quote character (one of the punctuation tokens skipped by
`normalize_arpabet_to_ipa`). -/
def squote : String := String.mk [Char.ofNat 39]

/-- Model of `LyricValidator.normalize_arpabet_to_ipa`: strip stress digits, skip
punctuation tokens, map through `ARPABET_TO_IPA` (lower-casing unmapped
tokens), join with spaces. -/
def normalize_arpabet_to_ipa (phonemes : List String) : String :=
  String.intercalate " " (phonemes.filterMap (fun p =>
    let base := rstrip_stress p
    if base = "" ∨ base = " " ∨ base = squote ∨ base = "," ∨ base = "." then none
    else some ((arpabet_to_ipa.lookup base).getD (pyLower base))))

/-- Whether two characters fall in one common `PHONETIC_CLASSES` class
(Python tests `char in class_chars` with `char` a 1-character string). -/
def same_class_char (c1 c2 : Char) : Bool :=
  phonetic_classes.any (fun cls =>
    cls.contains (String.mk [c1]) && cls.contains (String.mk [c2]))

/-- The position-wise comparison loop of `LyricValidator.calculate_phonetic_match`:
1 point for an exact character match, 1/2 for a shared broad class, else 0;
text positions beyond the audio string score nothing. -/
def match_points : List Char → List Char → ℚ
  | [], _ => 0
  | _ :: _, [] => 0
  | c :: cs, d :: ds =>
    (if c = d then 1 else if same_class_char c d then (1 : ℚ) / 2 else 0) +
      match_points cs ds

/-- Model of `LyricValidator.calculate_phonetic_match`. -/
def calculate_phonetic_match (text_phonemes : List String) (audio_ipa : String) : ℚ :=
  if audio_ipa = "" ∨ audio_ipa.toList.all pyIsSpace then 0
  else
    let text_ipa := normalize_arpabet_to_ipa text_phonemes
    if text_ipa = "" then 0
    else
      let text_sounds := text_ipa.toList.filter (fun c => c ≠ ' ')
      let audio_sounds := audio_ipa.toList.filter (fun c => c ≠ ' ')
      if audio_sounds = [] then 0
      else
        let total : Nat := max text_sounds.length audio_sounds.length
        if 0 < total then min 1 (match_points text_sounds audio_sounds / total)
        else 0

/-- The per-symbol point value as worded in the specification. -/
def spec_symbol_points (c1 c2 : Char) : ℚ :=
  if c1 = c2 then 1 else if same_class_char c1 c2 then 1 / 2 else 0

/-- The phonetic score as worded in the specification: position-wise points
over the two space-stripped symbol strings, normalised by the longer one. -/
def specPhoneticScore (text_phonemes : List String) (audio_ipa : String) : ℚ :=
  let t := (normalize_arpabet_to_ipa text_phonemes).toList.filter (fun c => c ≠ ' ')
  let a := audio_ipa.toList.filter (fun c => c ≠ ' ')
  (((t.zip a).map (fun p => spec_symbol_points p.1 p.2)).sum) /
    ((max t.length a.length : Nat) : ℚ)

/-! ## Validator: line validation -/

/-- Python `' '.join`. -/
def join_space : List String → String
  | [] => ""
  | [s] => s
  | s :: rest => s ++ " " ++ join_space rest

/-- Model of `LyricValidator.validate_line`, with the `g2p_en` conversion of the raw
text abstracted: the candidate is represented by its phoneme list. The source
defaults `rhythm_weight = 0.6`, `phonetic_weight = 0.4`. -/
def validate_line (phonemes : List String) (target_segments : List Segment)
    (rhythm_weight phonetic_weight : ℚ) : ValidationResult :=
  let stress_markers := extract_stress_markers phonemes
  let syl_count := stress_markers.length
  let target_count := target_segments.length
  if syl_count ≠ target_count then
    { is_valid := false, score := 0, groove_score := 0, phonetic_score := 0,
      syllable_count := syl_count, phonemes := phonemes, stress_markers := stress_markers }
  else
    let audio_stress := target_segments.map (fun seg => seg.is_stressed)
    let groove_score := calculate_groove_score stress_markers audio_stress
    let audio_phonemes_list := target_segments.map (fun seg => seg.audio_phonemes)
    let combined := join_space (audio_phonemes_list.filter (fun s => !s.isEmpty))
    if ¬(combined.toList.all pyIsSpace) then
      let phonetic_score := calculate_phonetic_match phonemes combined
      { is_valid := true,
        score := groove_score * rhythm_weight + phonetic_score * phonetic_weight,
        groove_score := groove_score, phonetic_score := phonetic_score,
        syllable_count := syl_count, phonemes := phonemes, stress_markers := stress_markers }
    else
      { is_valid := true, score := groove_score, groove_score := groove_score,
        phonetic_score := 0, syllable_count := syl_count,
        phonemes := phonemes, stress_markers := stress_markers }

/-- The concatenated observed-phoneme string `validate_line` builds from the
grid (`' '.join(filter(None, ...))`). -/
def combined_audio_phonemes (target_segments : List Segment) : String :=
  join_space ((target_segments.map (fun seg => seg.audio_phonemes)).filter (fun s => !s.isEmpty))

/-! ## Validator: candidate selection -/

/-- Model of `LyricValidator.validate_candidates` (each candidate given by its phoneme
list; weights are the source defaults). -/
def validate_candidates (candidates : List (List String)) (target_segments : List Segment) :
    List ValidationResult :=
  candidates.map (fun c => validate_line c target_segments (6 / 10) (4 / 10))

/-- Stable descending insertion by a score function: an earlier element stays
in front of later elements of equal score. -/
def insertDesc {α : Type} (s : α → ℚ) (x : α) : List α → List α
  | [] => [x]
  | y :: ys => if s y ≤ s x then x :: y :: ys else y :: insertDesc s x ys

/-- Stable descending sort by a score function — the model of Python's stable
`list.sort(key=..., reverse=True)` in `get_best_candidate` (a stable sort is
uniquely determined by the key, so any stable implementation is faithful). -/
def sortDesc {α : Type} (s : α → ℚ) : List α → List α
  | [] => []
  | x :: xs => insertDesc s x (sortDesc s xs)

/-- The `valid_results` list of `LyricValidator.get_best_candidate`: candidates
paired with their results, filtered to valid ones scoring at least
`min_score`. -/
def valid_candidate_pairs (candidates : List (List String)) (target_segments : List Segment)
    (min_score : ℚ) : List (List String × ValidationResult) :=
  (candidates.zip (validate_candidates candidates target_segments)).filter
    (fun p => p.2.is_valid && decide (min_score ≤ p.2.score))

/-- Model of `LyricValidator.get_best_candidate`: highest-scoring valid candidate, ties
broken by input order; `none` models Python's `(None, None)`. -/
def get_best_candidate (candidates : List (List String)) (target_segments : List Segment)
    (min_score : ℚ) : Option (List String × ValidationResult) :=
  match sortDesc (fun p => p.2.score) (valid_candidate_pairs candidates target_segments min_score) with
  | [] => none
  | b :: _ => some b

/-! ## Audio engine: slicing helper -/

/-- The sample slice the source takes with
`start = max(0, int(t0*sr))`, `end = min(len(y), int(t1*sr))`, `y[start:end]`. -/
def sample_slice (y : List ℚ) (sr t0 t1 : ℚ) : List ℚ :=
  let a := max 0 (pyInt (t0 * sr))
  let b := min (y.length : Int) (pyInt (t1 * sr))
  (y.drop a.toNat).take (b - a).toNat

/-- Whether that slice is non-degenerate (`end_sample > start_sample`). -/
def slice_nonempty (y : List ℚ) (sr t0 t1 : ℚ) : Bool :=
  decide (max 0 (pyInt (t0 * sr)) < min (y.length : Int) (pyInt (t1 * sr)))

/-! ## Audio engine: prosody detection (`PivotFormatter`) -/

/-- Model of `PivotFormatter._calculate_segment_rms`. `sqrt_fn` models `np.sqrt` (an
external numerical routine; no property of it is used anywhere). -/
def calculate_segment_rms (sqrt_fn : ℚ → ℚ) (y : List ℚ) (sr time_start duration : ℚ) : ℚ :=
  if ¬(slice_nonempty y sr time_start (time_start + duration)) then 0
  else sqrt_fn (npMean ((sample_slice y sr time_start (time_start + duration)).map (fun v => v * v)))

/-- Model of `PivotFormatter._detect_stress`: a segment is stressed when its RMS exceeds
`stress_threshold` times the mean RMS of its local window; a zero local
average yields `false` (the source's explicit division-by-zero guard — in
fact no division is performed on that branch at all). Total by construction. -/
def detect_stress (stress_threshold : ℚ) (stress_window_size : Nat)
    (rms_values : List ℚ) : List Bool :=
  if rms_values = [] then []
  else
    let n := rms_values.length
    let half_window := stress_window_size / 2
    (List.range n).map (fun i =>
      let window_start := i - half_window
      let window_end := min n (i + half_window + 1)
      let local_rms := (rms_values.drop window_start).take (window_end - window_start)
      let local_avg := if local_rms = [] then 0 else npMean local_rms
      if local_avg = 0 then false
      else decide (stress_threshold * local_avg < rms_values.getD i 0))

/-- The local-window mean RMS `_detect_stress` computes for index `i`
(Python `max(0, i - half)` is `Nat` truncated subtraction here). -/
def local_window_mean (stress_window_size : Nat) (rms_values : List ℚ) (i : Nat) : ℚ :=
  let half_window := stress_window_size / 2
  let window_end := min rms_values.length (i + half_window + 1)
  let local_rms := (rms_values.drop (i - half_window)).take (window_end - (i - half_window))
  if local_rms = [] then 0 else npMean local_rms

/-- Model of `PivotFormatter._detect_sustain`: duration strictly above the threshold. -/
def detect_sustain (sustain_threshold : ℚ) (durations : List ℚ) : List Bool :=
  durations.map (fun d => decide (sustain_threshold < d))

/-- The per-segment classification step of `PivotFormatter._detect_pitch`,
applied to the segment's voiced pitch values (the `f0` frames inside the
segment with `NaN`/unvoiced frames discarded). Over `ℚ` the source's
`np.isnan` re-checks on the two means are vacuous (means of non-empty rational
lists are never NaN) and are dropped. Python slice fine point: the end window
`valid_pitches[-len(valid_pitches)//3:]` has unary minus binding tighter than
`//`, so its start index is `(-n)//3 = -⌈n/3⌉` — the slice is the last
`⌈n/3⌉` values (`(n + 2) / 3` in `Nat` arithmetic), while the start window
`valid_pitches[:len(valid_pitches)//3]` is the first `⌊n/3⌋` values. -/
def classify_segment_pitch (valid_pitches : List ℚ) : String :=
  if valid_pitches = [] then "mid"
  else
    let median_pitch := np_median valid_pitches
    let n := valid_pitches.length
    if 3 ≤ n then
      let start_pitch := npMean (valid_pitches.take (n / 3))
      let end_pitch := npMean (valid_pitches.drop (n - (n + 2) / 3))
      let r0 := if 0 < start_pitch then end_pitch / start_pitch else 1
      if 12 / 10 < r0 then "rising"
      else if r0 < 8 / 10 then "falling"
      else if median_pitch < 150 then "low"
      else if 300 < median_pitch then "high"
      else "mid"
    else if median_pitch < 150 then "low"
    else if 300 < median_pitch then "high"
    else "mid"

/-- Model of `PivotFormatter._detect_pitch`, with the external `librosa.pyin` pitch
tracker abstracted: `f0` is its per-frame output as (frame time, optional
pitch) pairs, `none` standing for NaN (unvoiced). -/
def detect_pitch (f0 : List (ℚ × Option ℚ)) (onset_times durations : List ℚ) : List String :=
  (onset_times.zip durations).map (fun p =>
    let valid_pitches :=
      (f0.filter (fun q => decide (p.1 ≤ q.1) && decide (q.1 < p.1 + p.2))).filterMap
        (fun q => q.2)
    classify_segment_pitch valid_pitches)

/-! ## Audio engine: the breath filter -/

/-- The drop condition of `PivotFormatter._filter_low_energy_segments` for one
`(onset, duration)` pair: short AND (sample slice non-degenerate AND segment
RMS below the threshold). A degenerate slice skips the energy test and the
segment is kept. -/
def low_energy_drop (sqrt_fn : ℚ → ℚ) (y : List ℚ) (sr : ℚ)
    (energy_threshold max_short_duration : ℚ) (p : ℚ × ℚ) : Bool :=
  decide (p.2 < max_short_duration) &&
    (slice_nonempty y sr p.1 (p.1 + p.2) &&
      decide (sqrt_fn (npMean ((sample_slice y sr p.1 (p.1 + p.2)).map (fun v => v * v))) <
        energy_threshold))

/-- Model of `PivotFormatter._filter_low_energy_segments`. The parallel
`(onset_times, durations)` list pair of the source is modelled as a single
list of pairs (the source iterates over their `zip`). `global_rms` is the
output of the external `librosa.feature.rms` over the whole track. -/
def filter_low_energy_segments (sqrt_fn : ℚ → ℚ) (global_rms y : List ℚ) (sr : ℚ)
    (min_energy_frac max_short_duration : ℚ) (segs : List (ℚ × ℚ)) : List (ℚ × ℚ) :=
  if segs = [] then segs
  else
    let energy_threshold := min_energy_frac * (npMax global_rms + 1 / 10 ^ 10)
    segs.filter (fun p => !low_energy_drop sqrt_fn y sr energy_threshold max_short_duration p)

/-! ## Audio engine: long-segment splitting -/

/-- The duration-derivation pass of `PivotFormatter.format`:
`duration[i] = onset[i+1] - onset[i]`, and the configured default for the
final onset. -/
def derive_durations (default_dur : ℚ) : List ℚ → List ℚ
  | [] => []
  | [_] => [default_dur]
  | a :: b :: rest => (b - a) :: derive_durations default_dur (b :: rest)

/-- The sub-segment construction of `_split_long_segments`: consecutive
`(point, next - point)` pairs over a split-point list. -/
def consecutive_pairs : List ℚ → List (ℚ × ℚ)
  | a :: b :: rest => (a, b - a) :: consecutive_pairs (b :: rest)
  | _ => []

/-- The valley-scanning loop of `PivotFormatter._find_energy_valleys` over the
normalised RMS curve `rmsN`: for each frame index, skip it when too close to
the last accepted valley, not a local minimum, not deep enough relative to the
neighbouring peaks, or not below half the peak energy; otherwise accept its
time if it lies more than 50 ms inside the segment. `step` is
`hop_length / sr` seconds per frame. -/
def valley_loop (rmsN : List ℚ) (seg_start seg_end step min_depth : ℚ)
    (window_size : Nat) (min_dist : Int) : List Nat → Int → List ℚ
  | [], _ => []
  | i :: rest, last_idx =>
    if (i : Int) - last_idx < min_dist then
      valley_loop rmsN seg_start seg_end step min_depth window_size min_dist rest last_idx
    else if ¬(rmsN.getD i 0 < rmsN.getD (i - 1) 0 ∧ rmsN.getD i 0 < rmsN.getD (i + 1) 0) then
      valley_loop rmsN seg_start seg_end step min_depth window_size min_dist rest last_idx
    else
      let left_peak := npMax ((rmsN.drop (i - window_size)).take (i - (i - window_size)))
      let right_peak := npMax ((rmsN.drop (i + 1)).take (min rmsN.length (i + window_size + 1) - (i + 1)))
      let valley_depth := (left_peak + right_peak) / 2 - rmsN.getD i 0
      if valley_depth < min_depth then
        valley_loop rmsN seg_start seg_end step min_depth window_size min_dist rest last_idx
      else if 1 / 2 ≤ rmsN.getD i 0 then
        valley_loop rmsN seg_start seg_end step min_depth window_size min_dist rest last_idx
      else
        let t := seg_start + i * step
        if seg_start + 1 / 20 < t ∧ t < seg_end - 1 / 20 then
          t :: valley_loop rmsN seg_start seg_end step min_depth window_size min_dist rest (i : Int)
        else
          valley_loop rmsN seg_start seg_end step min_depth window_size min_dist rest last_idx

/-- Model of `PivotFormatter._find_energy_valleys`. `rms_of` abstracts the external
`librosa.feature.rms(y=segment_audio, hop_length=256)` call: the RMS frame
curve the library computes for a given sample slice. -/
def find_energy_valleys (rms_of : List ℚ → List ℚ) (y : List ℚ) (sr : ℚ)
    (seg_start seg_end min_valley_spacing min_valley_depth : ℚ) : List ℚ :=
  if ¬(slice_nonempty y sr seg_start seg_end) then []
  else
    let rms := rms_of (sample_slice y sr seg_start seg_end)
    if rms.length < 5 then []
    else
      let rms_max := npMax rms + 1 / 10 ^ 10
      let rmsN := rms.map (fun v => v / rms_max)
      let min_dist := pyInt (min_valley_spacing * sr / 256)
      let window_size := max 3 (Int.ediv min_dist 2).toNat
      valley_loop rmsN seg_start seg_end (256 / sr) min_valley_depth window_size min_dist
        (List.range' window_size (rmsN.length - window_size - window_size)) (-min_dist)

/-- Model of `PivotFormatter._split_long_segments` (pairs in place of the source's
parallel lists; `_find_energy_valleys` is called with its default
`min_valley_spacing = 0.08`, `min_valley_depth = 0.3`). -/
def split_long_segments (rms_of : List ℚ → List ℚ) (y : List ℚ) (sr max_segment_duration : ℚ)
    (pairs : List (ℚ × ℚ)) : List (ℚ × ℚ) :=
  pairs.flatMap (fun p =>
    if p.2 ≤ max_segment_duration then [p]
    else
      let seg_end := p.1 + p.2
      match find_energy_valleys rms_of y sr p.1 seg_end (2 / 25) (3 / 10) with
      | [] => [p]
      | v :: vs => consecutive_pairs (p.1 :: (v :: vs) ++ [seg_end]))

/-! ## Audio engine: the formatter pipeline -/

/-- The segment-refinement pipeline of `PivotFormatter.format`: derive
durations from onsets, split long segments at energy valleys, then drop
low-energy short segments. -/
def refine_pairs (rms_of : List ℚ → List ℚ) (sqrt_fn : ℚ → ℚ) (global_rms y : List ℚ)
    (sr default_dur max_segment_duration min_energy_frac max_short_duration : ℚ)
    (onset_times : List ℚ) : List (ℚ × ℚ) :=
  let durations := derive_durations default_dur onset_times
  let split := split_long_segments rms_of y sr max_segment_duration (onset_times.zip durations)
  filter_low_energy_segments sqrt_fn global_rms y sr min_energy_frac max_short_duration split

/-- The segment-building part of `PivotFormatter.format`: refine the onset
list, compute per-segment RMS, stress, sustain and pitch annotations, and
assemble `Segment` records (the source's `stressed[i] if i < len(stressed)
else False` defaults are the `getD` defaults here). `phon` is the per-segment
output of the external Allosaurus phonetic analyzer. -/
def format_segments (rms_of : List ℚ → List ℚ) (sqrt_fn : ℚ → ℚ) (global_rms : List ℚ)
    (f0 : List (ℚ × Option ℚ)) (phon : List String) (y : List ℚ)
    (sr default_dur max_segment_duration min_energy_frac max_short_duration : ℚ)
    (stress_threshold : ℚ) (stress_window_size : Nat) (sustain_threshold : ℚ)
    (onset_times : List ℚ) : List Segment :=
  let pairs := refine_pairs rms_of sqrt_fn global_rms y sr default_dur max_segment_duration
    min_energy_frac max_short_duration onset_times
  let onsets := pairs.map (fun p => p.1)
  let durs := pairs.map (fun p => p.2)
  let rms_values := pairs.map (fun p => calculate_segment_rms sqrt_fn y sr p.1 p.2)
  let stressed := detect_stress stress_threshold stress_window_size rms_values
  let sustained := detect_sustain sustain_threshold durs
  let pitches := detect_pitch f0 onsets durs
  (List.range pairs.length).map (fun i =>
    { time_start := onsets.getD i 0, duration := durs.getD i 0,
      is_stressed := stressed.getD i false, is_sustained := sustained.getD i false,
      pitch_contour := pitches.getD i "mid", audio_phonemes := phon.getD i "" })

/-! # Helper lemmas -/

/-! ## Groove score -/

theorem groove_pair_branch_eq (t : Nat) (a : Bool) :
    (if a then (if t = 1 then 2 else if t = 2 then (1 : ℚ) / 2 else 0)
     else (if t = 0 then 1 else 0)) = groove_pair_value t a := by
  cases a <;> simp only [groove_pair_value] <;> split_ifs <;> simp_all

theorem groove_points_eq_sum (l : List (Nat × Bool)) :
    groove_points l = (l.map (fun p => groove_pair_value p.1 p.2)).sum := by
  induction l with
  | nil => rfl
  | cons p rest ih =>
    obtain ⟨t, a⟩ := p
    simp only [groove_points, List.map_cons, List.sum_cons, ih, groove_pair_branch_eq]

theorem groove_pair_value_nonneg (t : Nat) (a : Bool) : 0 ≤ groove_pair_value t a := by
  simp only [groove_pair_value]; split_ifs <;> norm_num

theorem groove_pair_value_le (t : Nat) (a : Bool) :
    groove_pair_value t a ≤ if a then 2 else 1 := by
  simp only [groove_pair_value]; split_ifs <;> simp_all <;> norm_num

theorem groove_points_nonneg (l : List (Nat × Bool)) : 0 ≤ groove_points l := by
  rw [groove_points_eq_sum]
  apply List.sum_nonneg
  intro x hx
  obtain ⟨p, _, rfl⟩ := List.mem_map.1 hx
  exact groove_pair_value_nonneg p.1 p.2

theorem filter_bool_length (aus : List Bool) :
    ((aus.filter (fun s => s)).length + (aus.filter (fun s => !s)).length) = aus.length := by
  induction aus with
  | nil => rfl
  | cons a l ih => cases a <;> simp [List.filter, ih] <;> omega

theorem stressed_count_le (aus : List Bool) :
    (aus.filter (fun s => s)).length ≤ aus.length :=
  List.length_filter_le _ aus

theorem filter_id_cons_true (l : List Bool) :
    (true :: l).filter (fun s => s) = true :: l.filter (fun s => s) := rfl

theorem filter_id_cons_false (l : List Bool) :
    (false :: l).filter (fun s => s) = l.filter (fun s => s) := rfl

theorem filter_not_cons_true (l : List Bool) :
    (true :: l).filter (fun s => !s) = l.filter (fun s => !s) := rfl

theorem filter_not_cons_false (l : List Bool) :
    (false :: l).filter (fun s => !s) = false :: l.filter (fun s => !s) := rfl

/-- The maximum achievable points over a matched pair of lists equals the
accumulated points of the exactly matching stress profile. -/
theorem groove_points_perfect (aus : List Bool) :
    groove_points ((aus.map (fun b => if b then 1 else 0)).zip aus) =
      ((aus.filter (fun s => s)).length : ℚ) * 2 +
        ((aus.filter (fun s => !s)).length : ℚ) := by
  induction aus with
  | nil => simp [groove_points]
  | cons a l ih =>
    cases a
    · rw [show ((false :: l).map (fun b => if b then 1 else 0)).zip (false :: l) =
          (0, false) :: (l.map (fun b => if b then 1 else 0)).zip l from rfl,
        show groove_points ((0, false) :: (l.map (fun b => if b then 1 else 0)).zip l) =
          1 + groove_points ((l.map (fun b => if b then 1 else 0)).zip l) from rfl,
        ih, filter_id_cons_false, filter_not_cons_false, List.length_cons]
      push_cast; ring
    · rw [show ((true :: l).map (fun b => if b then 1 else 0)).zip (true :: l) =
          (1, true) :: (l.map (fun b => if b then 1 else 0)).zip l from rfl,
        show groove_points ((1, true) :: (l.map (fun b => if b then 1 else 0)).zip l) =
          2 + groove_points ((l.map (fun b => if b then 1 else 0)).zip l) from rfl,
        ih, filter_id_cons_true, filter_not_cons_true, List.length_cons]
      push_cast; ring

theorem groove_points_le_cap (ts : List Nat) (aus : List Bool) :
    groove_points (ts.zip aus) ≤
      ((aus.filter (fun s => s)).length : ℚ) * 2 +
        ((aus.filter (fun s => !s)).length : ℚ) := by
  induction ts generalizing aus with
  | nil =>
    rw [show (([] : List Nat).zip aus) = [] from rfl]
    simp only [groove_points]
    positivity
  | cons t tr ih =>
    cases aus with
    | nil => simp [groove_points]
    | cons a ar =>
      have h1 := ih ar
      have h2 : groove_pair_value t a ≤ if a then 2 else 1 := groove_pair_value_le t a
      rw [show ((t :: tr).zip (a :: ar)) = (t, a) :: tr.zip ar from rfl,
        show groove_points ((t, a) :: tr.zip ar) =
          groove_pair_value t a + groove_points (tr.zip ar) from by
            rw [show groove_points ((t, a) :: tr.zip ar) = (if a then
              (if t = 1 then 2 else if t = 2 then (1 : ℚ) / 2 else 0)
              else (if t = 0 then 1 else 0)) + groove_points (tr.zip ar) from rfl,
              groove_pair_branch_eq]]
      cases a
      · rw [filter_id_cons_false, filter_not_cons_false, List.length_cons] at *
        simp only [if_neg Bool.false_ne_true] at h2
        push_cast
        linarith
      · rw [filter_id_cons_true, filter_not_cons_true, List.length_cons] at *
        have h3 : groove_pair_value t true ≤ 2 := by simpa using h2
        push_cast
        linarith

theorem filter_not_length_cast (aus : List Bool) :
    ((aus.filter (fun s => !s)).length : ℚ) =
      (aus.length : ℚ) - ((aus.filter (fun s => s)).length : ℚ) := by
  have h := filter_bool_length aus
  have : ((aus.filter (fun s => s)).length : ℚ) + ((aus.filter (fun s => !s)).length : ℚ)
      = (aus.length : ℚ) := by exact_mod_cast congrArg (Nat.cast (R := ℚ)) h
  linarith

theorem sub_count_cast (aus : List Bool) :
    ((aus.length - (aus.filter (fun s => s)).length : Nat) : ℚ) =
      (aus.length : ℚ) - ((aus.filter (fun s => s)).length : ℚ) := by
  exact_mod_cast Nat.cast_sub (stressed_count_le aus)

theorem max_points_pos (aus : List Bool) (h : aus ≠ []) :
    0 < ((aus.filter (fun s => s)).length : ℚ) * 2 +
      ((aus.length - (aus.filter (fun s => s)).length : Nat) : ℚ) := by
  rw [sub_count_cast]
  have h1 : 0 < (aus.length : ℚ) := by
    have := List.length_pos.2 h
    exact_mod_cast this
  have h2 : (0 : ℚ) ≤ ((aus.filter (fun s => s)).length : ℚ) := by positivity
  linarith

/-- Claim C3. For equal-length non-empty stress/audio lists, the groove score of
`calculate_groove_score` is exactly the specification's formula: per-pair
points (2 for stressed∧primary, 1/2 for stressed∧secondary, 1 for
unstressed∧unstressed, 0 otherwise) divided by
`2·(stressed count) + 1·(unstressed count)`. -/
theorem calculate_groove_score_formula (ts : List Nat) (aus : List Bool)
    (hlen : ts.length = aus.length) (hne : ts ≠ []) (hdig : ∀ s ∈ ts, s ≤ 2) :
    calculate_groove_score ts aus = specGrooveScore ts aus := by
  have hlen' : ¬(ts.length ≠ aus.length) := by simpa using hlen
  have hausne : aus ≠ [] := by
    intro h
    apply hne
    rw [h] at hlen
    exact List.length_eq_zero.1 hlen
  have hmax := max_points_pos aus hausne
  simp only [calculate_groove_score, specGrooveScore]
  rw [if_neg hlen', if_neg hne, if_neg (ne_of_gt hmax)]
  rw [groove_points_eq_sum]
  rw [sub_count_cast, filter_not_length_cast]
  ring_nf

/-- Claim C4. The groove score always lies in `[0, 1]` for equal-length inputs,
and the stress profile exactly matching the audio stress booleans
(1 ↔ stressed, 0 ↔ unstressed) scores exactly 1 on any non-empty grid. -/
theorem calculate_groove_score_bounds_perfect :
    (∀ (ts : List Nat) (aus : List Bool), ts.length = aus.length →
      0 ≤ calculate_groove_score ts aus ∧ calculate_groove_score ts aus ≤ 1) ∧
    (∀ aus : List Bool, aus ≠ [] →
      calculate_groove_score (aus.map (fun b => if b then 1 else 0)) aus = 1) := by
  constructor
  · intro ts aus _
    simp only [calculate_groove_score]
    split_ifs with h1 h2 h3
    · norm_num
    · norm_num
    · norm_num
    · have hausne : aus ≠ [] := by
        intro h
        apply h2
        rw [h] at h1
        simpa using List.length_eq_zero.1 (by simpa using h1)
      have hmax := max_points_pos aus hausne
      constructor
      · apply div_nonneg (groove_points_nonneg _) (le_of_lt hmax)
      · rw [div_le_one hmax]
        calc groove_points (ts.zip aus)
            ≤ ((aus.filter (fun s => s)).length : ℚ) * 2 +
              ((aus.filter (fun s => !s)).length : ℚ) := groove_points_le_cap ts aus
          _ = _ := by rw [filter_not_length_cast, sub_count_cast]
  · intro aus hne
    have hlen' : ¬((aus.map (fun b : Bool => if b then (1 : Nat) else 0)).length ≠ aus.length) := by
      rw [List.length_map]
      exact fun h => h rfl
    have hmapne : aus.map (fun b : Bool => if b then (1 : Nat) else 0) ≠ [] := by
      simpa [List.map_eq_nil_iff] using hne
    have hmax := max_points_pos aus hne
    simp only [calculate_groove_score]
    rw [if_neg hlen', if_neg hmapne, if_neg (ne_of_gt hmax)]
    rw [groove_points_perfect, sub_count_cast, filter_not_length_cast]
    have hmax' : 0 < ((aus.filter (fun s => s)).length : ℚ) * 2 +
        ((aus.length : ℚ) - ((aus.filter (fun s => s)).length : ℚ)) := by
      rw [sub_count_cast] at hmax
      exact hmax
    exact div_self (ne_of_gt hmax')

/-- Witness for C3 at a concrete input. -/
theorem calculate_groove_score_formula_witness :
    calculate_groove_score [1] [true] = specGrooveScore [1] [true] :=
  calculate_groove_score_formula [1] [true] rfl (by decide) (by decide)

/-- Witness for C4 at a concrete input. -/
theorem calculate_groove_score_bounds_perfect_witness :
    (0 ≤ calculate_groove_score [1, 0] [true, false] ∧
      calculate_groove_score [1, 0] [true, false] ≤ 1) ∧
    calculate_groove_score [1, 0] [true, false] = 1 :=
  ⟨calculate_groove_score_bounds_perfect.1 [1, 0] [true, false] rfl,
   calculate_groove_score_bounds_perfect.2 [true, false] (by decide)⟩

/-! ## Line validation (C1, C5) -/

/-- Claim C1. `validate_line` is valid exactly when the phonetic syllable count
equals the segment count; a mismatch yields an invalid result with combined
score 0; and an empty candidate against an empty grid is valid with score 0.
The function is a total Lean definition, so no exception is possible. -/
theorem validate_line_gate (phonemes : List String) (segs : List Segment) :
    ((validate_line phonemes segs (6 / 10) (4 / 10)).is_valid = true ↔
      syllable_count_of phonemes = segs.length) ∧
    (syllable_count_of phonemes ≠ segs.length →
      (validate_line phonemes segs (6 / 10) (4 / 10)).is_valid = false ∧
      (validate_line phonemes segs (6 / 10) (4 / 10)).score = 0) ∧
    (syllable_count_of phonemes = 0 → segs = [] →
      (validate_line phonemes segs (6 / 10) (4 / 10)).is_valid = true ∧
      (validate_line phonemes segs (6 / 10) (4 / 10)).score = 0) := by
  refine ⟨?_, ?_, ?_⟩
  · by_cases h : syllable_count_of phonemes = segs.length
    · simp only [syllable_count_of] at h
      simp only [validate_line, syllable_count_of]
      rw [if_neg (not_ne_iff.2 h)]
      split_ifs
      · simpa using h
      · simpa using h
    · simp only [syllable_count_of] at h
      simp only [validate_line, syllable_count_of]
      rw [if_pos h]
      simpa using h
  · intro hne
    simp only [syllable_count_of] at hne
    simp only [validate_line, syllable_count_of]
    rw [if_pos hne]
    exact ⟨rfl, rfl⟩
  · intro h0 hsegs
    subst hsegs
    have hm : extract_stress_markers phonemes = [] := by
      simpa [syllable_count_of] using List.length_eq_zero.1 h0
    have h0' : ¬((extract_stress_markers phonemes).length ≠ ([] : List Segment).length) := by
      simp [hm]
    simp only [validate_line]
    rw [if_neg h0']
    rw [if_neg (not_not_intro (by rfl))]
    refine ⟨rfl, ?_⟩
    show calculate_groove_score (extract_stress_markers phonemes) (([] : List Segment).map _) = 0
    rw [hm]
    rfl

/-- Witness for C1 at a concrete input (empty candidate, empty grid). -/
theorem validate_line_gate_witness :
    (validate_line [] [] (6 / 10) (4 / 10)).is_valid = true ∧
    (validate_line [] [] (6 / 10) (4 / 10)).score = 0 :=
  (validate_line_gate [] []).2.2 rfl rfl

/-- Counterexample to claim C5. A segment carrying the non-empty (but whitespace
only) observed-phoneme string `" "` defeats the claim: the candidate is valid
and at least one segment carries non-empty observed phonemes, yet the
combined score is the groove score alone (here 1), not
`0.6·groove + 0.4·phonetic` (here 0.6). -/
theorem validate_line_combined_score_cex :
    (Segment.mk 0 1 true false "mid" " ").audio_phonemes ≠ "" ∧
    (validate_line ["AA1"] [Segment.mk 0 1 true false "mid" " "] (6 / 10) (4 / 10)).is_valid
      = true ∧
    (validate_line ["AA1"] [Segment.mk 0 1 true false "mid" " "] (6 / 10) (4 / 10)).score ≠
      6 / 10 * (validate_line ["AA1"] [Segment.mk 0 1 true false "mid" " "]
          (6 / 10) (4 / 10)).groove_score +
        4 / 10 * (validate_line ["AA1"] [Segment.mk 0 1 true false "mid" " "]
          (6 / 10) (4 / 10)).phonetic_score := by
  have hg : calculate_groove_score [1] [true] = 1 := by
    rw [show calculate_groove_score [1] [true] = groove_points [(1, true)] /
        ((1 : ℚ) * 2 + ((0 : Nat) : ℚ)) from by norm_num [calculate_groove_score],
      show groove_points [(1, true)] = 2 from by norm_num [groove_points]]
    norm_num
  have hsc : (validate_line ["AA1"] [Segment.mk 0 1 true false "mid" " "]
      (6 / 10) (4 / 10)).score = calculate_groove_score [1] [true] := rfl
  have hgr : (validate_line ["AA1"] [Segment.mk 0 1 true false "mid" " "]
      (6 / 10) (4 / 10)).groove_score = calculate_groove_score [1] [true] := rfl
  have hph : (validate_line ["AA1"] [Segment.mk 0 1 true false "mid" " "]
      (6 / 10) (4 / 10)).phonetic_score = 0 := rfl
  refine ⟨by decide, by decide, ?_⟩
  rw [hsc, hgr, hph, hg]
  norm_num

/-- Claim C5, amended. For a valid candidate: when the concatenated observed
phonemes contain a non-whitespace character, the combined score is
`0.6·groove + 0.4·phonetic`; otherwise the phonetic score is 0 and the
combined score is the groove score alone. (Amended from "at least one segment
carries non-empty observed phonemes": the source tests
`combined_audio_phonemes.strip()`, so whitespace-only phoneme strings count
as no evidence — see the counterexample.) -/
theorem validate_line_combined_score (phonemes : List String) (segs : List Segment)
    (h : syllable_count_of phonemes = segs.length) :
    ((combined_audio_phonemes segs).toList.all pyIsSpace = false →
      (validate_line phonemes segs (6 / 10) (4 / 10)).score =
        6 / 10 * (validate_line phonemes segs (6 / 10) (4 / 10)).groove_score +
          4 / 10 * (validate_line phonemes segs (6 / 10) (4 / 10)).phonetic_score ∧
      (validate_line phonemes segs (6 / 10) (4 / 10)).phonetic_score =
        calculate_phonetic_match phonemes (combined_audio_phonemes segs)) ∧
    ((combined_audio_phonemes segs).toList.all pyIsSpace = true →
      (validate_line phonemes segs (6 / 10) (4 / 10)).phonetic_score = 0 ∧
      (validate_line phonemes segs (6 / 10) (4 / 10)).score =
        (validate_line phonemes segs (6 / 10) (4 / 10)).groove_score) := by
  simp only [syllable_count_of] at h
  simp only [validate_line, combined_audio_phonemes]
  rw [if_neg (not_ne_iff.2 h)]
  constructor
  · intro hc
    rw [if_pos (by rw [hc]; exact Bool.false_ne_true)]
    exact ⟨by ring, rfl⟩
  · intro hc
    rw [if_neg (not_not_intro hc)]
    exact ⟨rfl, rfl⟩

/-- Witness for C5 at a concrete input (one segment with real phonetic
evidence, one whitespace-only case). -/
theorem validate_line_combined_score_witness :
    ((validate_line ["AA1"] [Segment.mk 0 1 true false "mid" "b"] (6 / 10) (4 / 10)).score =
      6 / 10 * (validate_line ["AA1"] [Segment.mk 0 1 true false "mid" "b"]
          (6 / 10) (4 / 10)).groove_score +
        4 / 10 * (validate_line ["AA1"] [Segment.mk 0 1 true false "mid" "b"]
          (6 / 10) (4 / 10)).phonetic_score) ∧
    (validate_line ["AA1"] [Segment.mk 0 1 true false "mid" " "] (6 / 10) (4 / 10)).score =
      (validate_line ["AA1"] [Segment.mk 0 1 true false "mid" " "] (6 / 10) (4 / 10)).groove_score :=
  ⟨((validate_line_combined_score ["AA1"] [Segment.mk 0 1 true false "mid" "b"]
      (by decide)).1 (by decide)).1,
   ((validate_line_combined_score ["AA1"] [Segment.mk 0 1 true false "mid" " "]
      (by decide)).2 (by decide)).2⟩

/-! ## Phonetic match (C6) -/

theorem spec_symbol_points_nonneg (c1 c2 : Char) : 0 ≤ spec_symbol_points c1 c2 := by
  simp only [spec_symbol_points]
  split_ifs <;> norm_num

theorem spec_symbol_points_le_one (c1 c2 : Char) : spec_symbol_points c1 c2 ≤ 1 := by
  simp only [spec_symbol_points]
  split_ifs <;> norm_num

theorem match_points_eq_sum (cs ds : List Char) :
    match_points cs ds = ((cs.zip ds).map (fun p => spec_symbol_points p.1 p.2)).sum := by
  induction cs generalizing ds with
  | nil => cases ds <;> rfl
  | cons c cr ih =>
    cases ds with
    | nil => rfl
    | cons d dr =>
      rw [show (c :: cr).zip (d :: dr) = (c, d) :: cr.zip dr from rfl, List.map_cons,
        List.sum_cons, ← ih dr]
      rfl

theorem match_points_nonneg (cs ds : List Char) : 0 ≤ match_points cs ds := by
  rw [match_points_eq_sum]
  apply List.sum_nonneg
  intro x hx
  obtain ⟨p, _, rfl⟩ := List.mem_map.1 hx
  exact spec_symbol_points_nonneg p.1 p.2

theorem match_points_le_len (cs ds : List Char) :
    match_points cs ds ≤ ((cs.zip ds).length : ℚ) := by
  rw [match_points_eq_sum]
  calc ((cs.zip ds).map (fun p => spec_symbol_points p.1 p.2)).sum
      ≤ ((cs.zip ds).map (fun _ => (1 : ℚ))).sum := by
        apply List.sum_le_sum
        intro p _
        exact spec_symbol_points_le_one p.1 p.2
    _ = ((cs.zip ds).length : ℚ) := by
        rw [List.map_const']
        simp

/-- Claim C6, amended. Whenever the concatenated observed-phoneme string
contains at least one non-whitespace character, `calculate_phonetic_match`
computes exactly the specification's formula (position-wise symbol points
normalised by the longer symbol string) and lies in `[0, 1]`. (Amended from
"non-empty": an all-whitespace observed string such as a single tab is
non-empty yet short-circuits the source to 0 — see the counterexample.) -/
theorem calculate_phonetic_match_spec (tp : List String) (ai : String)
    (h : ai.toList.any (fun c => !pyIsSpace c) = true) :
    calculate_phonetic_match tp ai = specPhoneticScore tp ai ∧
    0 ≤ calculate_phonetic_match tp ai ∧ calculate_phonetic_match tp ai ≤ 1 := by
  obtain ⟨c, hcmem, hcn⟩ := List.any_eq_true.1 h
  have hcfalse : pyIsSpace c = false := by simpa using hcn
  have hnall : ¬(ai = "" ∨ ai.toList.all pyIsSpace = true) := by
    rintro (h1 | h2)
    · rw [h1] at hcmem
      simp at hcmem
    · have := List.all_eq_true.1 h2 c hcmem
      rw [hcfalse] at this
      exact absurd this (by simp)
  have hcns : c ≠ ' ' := by
    intro he
    rw [he] at hcfalse
    exact absurd hcfalse (by decide)
  have hamem : c ∈ ai.toList.filter (fun c => c ≠ ' ') :=
    List.mem_filter.2 ⟨hcmem, by simp [hcns]⟩
  have hane : ai.toList.filter (fun c => c ≠ ' ') ≠ [] := List.ne_nil_of_mem hamem
  have hapos : 0 < (ai.toList.filter (fun c => c ≠ ' ')).length :=
    List.length_pos.2 hane
  by_cases ht : normalize_arpabet_to_ipa tp = ""
  · have hspec : specPhoneticScore tp ai = 0 := by
      simp only [specPhoneticScore, ht]
      rw [show ("" : String).toList.filter (fun c => c ≠ ' ') = [] from rfl]
      rw [show ([] : List Char).zip (ai.toList.filter (fun c => c ≠ ' ')) = [] from rfl]
      simp
    have hcode : calculate_phonetic_match tp ai = 0 := by
      simp only [calculate_phonetic_match]
      rw [if_neg hnall, if_pos ht]
    rw [hcode, hspec]
    norm_num
  · have htot : 0 < max (((normalize_arpabet_to_ipa tp).toList.filter (fun c => c ≠ ' ')).length)
        ((ai.toList.filter (fun c => c ≠ ' ')).length) :=
      lt_of_lt_of_le hapos (le_max_right _ _)
    have htotq : (0 : ℚ) < ((max (((normalize_arpabet_to_ipa tp).toList.filter
        (fun c => c ≠ ' ')).length) ((ai.toList.filter (fun c => c ≠ ' ')).length) : Nat) : ℚ) := by
      exact_mod_cast htot
    have hmle : match_points ((normalize_arpabet_to_ipa tp).toList.filter (fun c => c ≠ ' '))
        (ai.toList.filter (fun c => c ≠ ' ')) ≤
        ((max (((normalize_arpabet_to_ipa tp).toList.filter (fun c => c ≠ ' ')).length)
          ((ai.toList.filter (fun c => c ≠ ' ')).length) : Nat) : ℚ) := by
      calc match_points _ _ ≤ ((((normalize_arpabet_to_ipa tp).toList.filter (fun c => c ≠ ' ')).zip
            (ai.toList.filter (fun c => c ≠ ' '))).length : ℚ) := match_points_le_len _ _
        _ ≤ _ := by
            rw [List.length_zip]
            exact_mod_cast le_trans (min_le_left _ _) (le_max_left _ _)
    have hdivle : match_points ((normalize_arpabet_to_ipa tp).toList.filter (fun c => c ≠ ' '))
        (ai.toList.filter (fun c => c ≠ ' ')) /
        ((max (((normalize_arpabet_to_ipa tp).toList.filter (fun c => c ≠ ' ')).length)
          ((ai.toList.filter (fun c => c ≠ ' ')).length) : Nat) : ℚ) ≤ 1 :=
      (div_le_one htotq).2 hmle
    have hcode : calculate_phonetic_match tp ai =
        match_points ((normalize_arpabet_to_ipa tp).toList.filter (fun c => c ≠ ' '))
          (ai.toList.filter (fun c => c ≠ ' ')) /
        ((max (((normalize_arpabet_to_ipa tp).toList.filter (fun c => c ≠ ' ')).length)
          ((ai.toList.filter (fun c => c ≠ ' ')).length) : Nat) : ℚ) := by
      simp only [calculate_phonetic_match]
      rw [if_neg hnall, if_neg ht, if_neg hane, if_pos htot]
      exact min_eq_right hdivle
    refine ⟨?_, ?_, ?_⟩
    · rw [hcode]
      simp only [specPhoneticScore]
      rw [match_points_eq_sum]
    · rw [hcode]
      exact div_nonneg (match_points_nonneg _ _) (le_of_lt htotq)
    · rw [hcode]
      exact hdivle

/-- Witness for C6 (amended) at a concrete input. -/
theorem calculate_phonetic_match_spec_witness :
    calculate_phonetic_match ["M"] "m" = specPhoneticScore ["M"] "m" ∧
    0 ≤ calculate_phonetic_match ["M"] "m" ∧ calculate_phonetic_match ["M"] "m" ≤ 1 :=
  calculate_phonetic_match_spec ["M"] "m" (by decide)

/-- Counterexample to claim C6. The observed string `"\t"` (a tab) is non-empty,
yet the source's `strip()` guard returns 0 while the claimed position-wise
formula gives 1 (the candidate phoneme list `["\t"]` normalises to the same
single tab symbol). -/
theorem calculate_phonetic_match_cex :
    ("\t" : String) ≠ "" ∧
    calculate_phonetic_match ["\t"] "\t" = 0 ∧
    specPhoneticScore ["\t"] "\t" = 1 := by
  refine ⟨by decide, rfl, ?_⟩
  rw [show specPhoneticScore ["\t"] "\t" =
    (([('\t', '\t')]).map (fun p => spec_symbol_points p.1 p.2)).sum / ((max 1 1 : Nat) : ℚ)
    from rfl]
  norm_num [spec_symbol_points]

/-! ## Candidate selection (C2) -/

theorem insertDesc_ne_nil {α : Type} (s : α → ℚ) (x : α) (l : List α) :
    insertDesc s x l ≠ [] := by
  cases l with
  | nil => simp [insertDesc]
  | cons y ys =>
    simp only [insertDesc]
    split_ifs <;> simp

theorem sortDesc_nil_input {α : Type} (s : α → ℚ) (l : List α) (h : sortDesc s l = []) :
    l = [] := by
  cases l with
  | nil => rfl
  | cons x xs =>
    rw [show sortDesc s (x :: xs) = insertDesc s x (sortDesc s xs) from rfl] at h
    exact absurd h (insertDesc_ne_nil s x _)

/-- The head of the stable descending sort is the first element of the input
attaining the maximal score: every input element scores at most it, and every
input element strictly before it scores strictly below it. -/
theorem sortDesc_head_first_max {α : Type} (s : α → ℚ) :
    ∀ (l : List α) (x : α) (t : List α), sortDesc s l = x :: t →
      ∃ pre post, l = pre ++ x :: post ∧ (∀ y ∈ pre, s y < s x) ∧ ∀ y ∈ l, s y ≤ s x := by
  intro l
  induction l with
  | nil => intro x t h; simp [sortDesc] at h
  | cons a l' ih =>
    intro x t h
    rw [show sortDesc s (a :: l') = insertDesc s a (sortDesc s l') from rfl] at h
    cases hs : sortDesc s l' with
    | nil =>
      have hl' : l' = [] := sortDesc_nil_input s l' hs
      rw [hs] at h
      simp only [insertDesc] at h
      injection h with h1 h2
      subst h1
      refine ⟨[], [], by simp [hl'], by simp, ?_⟩
      intro y hy
      rw [hl'] at hy
      rcases List.mem_cons.1 hy with rfl | hy'
      · exact le_refl _
      · simp at hy'
    | cons b t' =>
      obtain ⟨pre', post', hdec, hpre', hmax'⟩ := ih b t' hs
      rw [hs] at h
      simp only [insertDesc] at h
      by_cases hc : s b ≤ s a
      · rw [if_pos hc] at h
        injection h with h1 h2
        subst h1
        refine ⟨[], l', rfl, by simp, ?_⟩
        intro y hy
        rcases List.mem_cons.1 hy with rfl | hy'
        · exact le_refl _
        · exact le_trans (hmax' y hy') hc
      · rw [if_neg hc] at h
        injection h with h1 h2
        subst h1
        refine ⟨a :: pre', post', by rw [hdec]; rfl, ?_, ?_⟩
        · intro y hy
          rcases List.mem_cons.1 hy with rfl | hy'
          · exact lt_of_not_le hc
          · exact hpre' y hy'
        · intro y hy
          rcases List.mem_cons.1 hy with rfl | hy'
          · exact le_of_lt (lt_of_not_le hc)
          · exact hmax' y hy'

theorem zip_map_mem {α β : Type} (f : α → β) :
    ∀ (l : List α) (p : α × β), p ∈ l.zip (l.map f) → p.2 = f p.1 ∧ p.1 ∈ l := by
  intro l
  induction l with
  | nil => intro p h; simp at h
  | cons a l' ih =>
    intro p h
    rw [show (a :: l').zip ((a :: l').map f) = (a, f a) :: l'.zip (l'.map f) from rfl] at h
    rcases List.mem_cons.1 h with rfl | h'
    · exact ⟨rfl, List.mem_cons_self a l'⟩
    · obtain ⟨h1, h2⟩ := ih p h'
      exact ⟨h1, List.mem_cons_of_mem a h2⟩

/-- Claim C2. `get_best_candidate` (at the default `min_score = 0`) never returns
an invalid candidate; it returns `none` (Python's `(None, None)`) when the
candidate list is empty or no candidate is valid; and the returned pair is the
first entry of the valid-candidate list attaining the maximal combined score —
ties go to the earliest candidate in input order. -/
theorem get_best_candidate_spec (cands : List (List String)) (segs : List Segment) :
    (∀ c r, get_best_candidate cands segs 0 = some (c, r) → r.is_valid = true) ∧
    ((cands = [] ∨ ∀ c ∈ cands, (validate_line c segs (6 / 10) (4 / 10)).is_valid = false) →
      get_best_candidate cands segs 0 = none) ∧
    (∀ c r, get_best_candidate cands segs 0 = some (c, r) →
      ∃ pre post, valid_candidate_pairs cands segs 0 = pre ++ (c, r) :: post ∧
        (∀ p ∈ pre, p.2.score < r.score) ∧
        (∀ p ∈ valid_candidate_pairs cands segs 0, p.2.score ≤ r.score)) := by
  have hdecomp : ∀ c r, get_best_candidate cands segs 0 = some (c, r) →
      ∃ pre post, valid_candidate_pairs cands segs 0 = pre ++ (c, r) :: post ∧
        (∀ p ∈ pre, p.2.score < r.score) ∧
        (∀ p ∈ valid_candidate_pairs cands segs 0, p.2.score ≤ r.score) := by
    intro c r h
    simp only [get_best_candidate] at h
    cases hs : sortDesc (fun p => p.2.score) (valid_candidate_pairs cands segs 0) with
    | nil => rw [hs] at h; simp at h
    | cons b t =>
      rw [hs] at h
      simp only [Option.some.injEq] at h
      subst h
      exact sortDesc_head_first_max _ _ _ _ hs
  refine ⟨?_, ?_, hdecomp⟩
  · intro c r h
    obtain ⟨pre, post, hdec, -, -⟩ := hdecomp c r h
    have hmem : (c, r) ∈ valid_candidate_pairs cands segs 0 := by
      rw [hdec]
      exact List.mem_append_right pre (List.mem_cons_self _ _)
    have := (List.mem_filter.1 hmem).2
    have hv : r.is_valid = true ∧ decide ((0 : ℚ) ≤ r.score) = true := by
      simpa using this
    exact hv.1
  · intro hcase
    have hnil : valid_candidate_pairs cands segs 0 = [] := by
      rcases hcase with rfl | hall
      · rfl
      · apply List.filter_eq_nil_iff.2
        intro p hp
        obtain ⟨h2, h1⟩ := zip_map_mem (fun c => validate_line c segs (6 / 10) (4 / 10)) cands p hp
        have := hall p.1 h1
        rw [← h2] at this
        simp [this]
    simp only [get_best_candidate, hnil]
    rfl

/-- Witness for C2 at a concrete input (empty candidate list). -/
theorem get_best_candidate_spec_witness :
    get_best_candidate [] [] 0 = none :=
  (get_best_candidate_spec [] []).2.1 (Or.inl rfl)

/-! ## Stress detection (C10) -/

theorem npMean_pos (l : List ℚ) (hne : l ≠ []) (hpos : ∀ x ∈ l, 0 < x) : 0 < npMean l := by
  have h1 : 0 < l.sum := List.sum_pos l hpos hne
  have h2 : 0 < (l.length : ℚ) := by
    have := List.length_pos.2 hne
    exact_mod_cast this
  exact div_pos h1 h2

/-- Claim C10. `_detect_stress` is total: it returns one boolean per input RMS
value for every input (the Lean embedding is a total function, the source
performs no division at all on the stress test — it multiplies the threshold
by the local average), and any segment whose local-window mean RMS is zero is
classified not stressed. -/
theorem detect_stress_total_zero_mean (stress_threshold : ℚ) (stress_window_size : Nat)
    (rms_values : List ℚ) :
    (detect_stress stress_threshold stress_window_size rms_values).length =
      rms_values.length ∧
    (∀ i, i < rms_values.length →
      local_window_mean stress_window_size rms_values i = 0 →
      (detect_stress stress_threshold stress_window_size rms_values).getD i false = false) := by
  by_cases hnil : rms_values = []
  · subst hnil
    refine ⟨rfl, ?_⟩
    intro i hi
    simp at hi
  · constructor
    · simp [detect_stress, hnil]
    · intro i hi hmean
      simp only [detect_stress, if_neg hnil]
      have hlen : i < ((List.range rms_values.length).map (fun i =>
          let window_start := i - stress_window_size / 2
          let window_end := min rms_values.length (i + stress_window_size / 2 + 1)
          let local_rms := (rms_values.drop window_start).take (window_end - window_start)
          let local_avg := if local_rms = [] then 0 else npMean local_rms
          if local_avg = 0 then false
          else decide (stress_threshold * local_avg < rms_values.getD i 0))).length := by
        simpa using hi
      rw [List.getD_eq_getElem _ _ hlen, List.getElem_map, List.getElem_range]
      simp only [local_window_mean] at hmean
      rw [if_pos hmean]

/-- Witness for C10 at a concrete input (an all-zero RMS window). -/
theorem detect_stress_total_zero_mean_witness :
    (detect_stress (12 / 10) 5 [0, 0]).length = 2 ∧
    (detect_stress (12 / 10) 5 [0, 0]).getD 0 false = false :=
  ⟨(detect_stress_total_zero_mean (12 / 10) 5 [0, 0]).1,
   (detect_stress_total_zero_mean (12 / 10) 5 [0, 0]).2 0 (by norm_num)
     (by norm_num [local_window_mean, npMean])⟩

/-! ## Pitch-contour classification (C9) -/

/-- Claim C9. For a segment with at least three voiced pitch frames (all
pitch values positive, as produced by the pitch tracker): whenever the mean of
the last third of the voiced pitch values — the last `⌈n/3⌉` of them, exactly
as the source's `valid_pitches[-len(valid_pitches)//3:]` slices — exceeds 1.2
times the mean of the first third (the first `⌊n/3⌋`), the contour is
"rising"; whenever it is below 0.8 times, the contour is "falling" — in both
cases regardless of the median-based low/mid/high bucket, because the trend
test runs first. Below three voiced frames the source never reaches the trend
check and the claim's "mean of the first third" is a mean over an empty
slice, so the comparison is meaningful (and stated) only for three or more
frames. -/
theorem classify_segment_pitch_trend (vp : List ℚ) (hpos : ∀ x ∈ vp, 0 < x)
    (h3 : 3 ≤ vp.length) :
    ((12 / 10) * npMean (vp.take (vp.length / 3)) <
        npMean (vp.drop (vp.length - (vp.length + 2) / 3)) →
      classify_segment_pitch vp = "rising") ∧
    (npMean (vp.drop (vp.length - (vp.length + 2) / 3)) <
        (8 / 10) * npMean (vp.take (vp.length / 3)) →
      classify_segment_pitch vp = "falling") := by
  have hne : vp ≠ [] := by
    intro hcon
    rw [hcon] at h3
    simp at h3
  have htne : vp.take (vp.length / 3) ≠ [] := by
    have : 1 ≤ vp.length / 3 := Nat.one_le_div_iff (by norm_num) |>.2 h3
    have hlen : (vp.take (vp.length / 3)).length = vp.length / 3 := by
      rw [List.length_take]
      exact min_eq_left (Nat.div_le_self _ _)
    intro hcon
    rw [hcon] at hlen
    simp at hlen
    omega
  have htpos : ∀ x ∈ vp.take (vp.length / 3), 0 < x := by
    intro x hx
    exact hpos x (List.mem_of_mem_take hx)
  have hfm : 0 < npMean (vp.take (vp.length / 3)) := npMean_pos _ htne htpos
  constructor
  · intro hrise
    have hr : 12 / 10 < npMean (vp.drop (vp.length - (vp.length + 2) / 3)) /
        npMean (vp.take (vp.length / 3)) := by
      rw [lt_div_iff₀ hfm]
      linarith
    simp only [classify_segment_pitch, if_neg hne, if_pos h3, if_pos hfm]
    rw [if_pos hr]
  · intro hfall
    have hr : npMean (vp.drop (vp.length - (vp.length + 2) / 3)) /
        npMean (vp.take (vp.length / 3)) < 8 / 10 := by
      rw [div_lt_iff₀ hfm]
      linarith
    have hnr : ¬(12 / 10 < npMean (vp.drop (vp.length - (vp.length + 2) / 3)) /
        npMean (vp.take (vp.length / 3))) := by
      intro hcon
      linarith
    simp only [classify_segment_pitch, if_neg hne, if_pos h3, if_pos hfm]
    rw [if_neg hnr, if_pos hr]

/-- Witness for C9 at a concrete input. -/
theorem classify_segment_pitch_trend_witness :
    classify_segment_pitch [1, 1, 2] = "rising" ∧
    classify_segment_pitch [2, 2, 1] = "falling" :=
  ⟨(classify_segment_pitch_trend [1, 1, 2] (by norm_num) (by norm_num)).1
      (by norm_num [npMean]),
   (classify_segment_pitch_trend [2, 2, 1] (by norm_num) (by norm_num)).2
      (by norm_num [npMean])⟩

/-! ## Breath filter (C8) -/

/-- Claim C8. The low-energy breath filter is idempotent — applying it to its
own output (same waveform, same thresholds) is the identity — and no segment
surviving it satisfies the drop condition (short duration AND computable
sample slice AND RMS below the energy threshold). -/
theorem filter_low_energy_segments_idem (sqrt_fn : ℚ → ℚ) (global_rms y : List ℚ)
    (sr min_energy_frac max_short_duration : ℚ) (segs : List (ℚ × ℚ)) :
    filter_low_energy_segments sqrt_fn global_rms y sr min_energy_frac max_short_duration
        (filter_low_energy_segments sqrt_fn global_rms y sr min_energy_frac
          max_short_duration segs) =
      filter_low_energy_segments sqrt_fn global_rms y sr min_energy_frac
        max_short_duration segs ∧
    ∀ p ∈ filter_low_energy_segments sqrt_fn global_rms y sr min_energy_frac
        max_short_duration segs,
      low_energy_drop sqrt_fn y sr (min_energy_frac * (npMax global_rms + 1 / 10 ^ 10))
        max_short_duration p = false := by
  by_cases hnil : segs = []
  · subst hnil
    refine ⟨rfl, ?_⟩
    intro p hp
    simp [filter_low_energy_segments] at hp
  · have hF : filter_low_energy_segments sqrt_fn global_rms y sr min_energy_frac
        max_short_duration segs =
        segs.filter (fun p => !low_energy_drop sqrt_fn y sr
          (min_energy_frac * (npMax global_rms + 1 / 10 ^ 10)) max_short_duration p) := by
      simp only [filter_low_energy_segments, if_neg hnil]
    constructor
    · rw [hF]
      by_cases hL : segs.filter (fun p => !low_energy_drop sqrt_fn y sr
          (min_energy_frac * (npMax global_rms + 1 / 10 ^ 10)) max_short_duration p) = []
      · rw [hL]
        rfl
      · simp only [filter_low_energy_segments, if_neg hL]
        apply List.filter_eq_self.2
        intro a ha
        exact (List.mem_filter.1 ha).2
    · intro p hp
      rw [hF] at hp
      have h2 := (List.mem_filter.1 hp).2
      simpa using h2

/-- Witness for C8 at a concrete input (one long segment surviving the
filter). -/
theorem filter_low_energy_segments_idem_witness :
    low_energy_drop id [] 1 (0 * (npMax [] + 1 / 10 ^ 10)) 0 (0, 1) = false := by
  apply (filter_low_energy_segments_idem id [] [] 1 0 0 [(0, 1)]).2 (0, 1)
  simp only [filter_low_energy_segments,
    if_neg (List.cons_ne_nil ((0 : ℚ), (1 : ℚ)) [])]
  apply List.mem_filter.2
  refine ⟨List.mem_cons_self _ _, ?_⟩
  have h1 : ¬((1 : ℚ) < 0) := by norm_num
  simp [low_energy_drop, h1]

/-! ## Segment refinement (C7) -/

theorem valley_loop_mem (rmsN : List ℚ) (s e st d : ℚ) (ws : Nat) (md : Int) :
    ∀ (idxs : List Nat) (last : Int) (t : ℚ),
      t ∈ valley_loop rmsN s e st d ws md idxs last →
      (∃ j ∈ idxs, t = s + j * st) ∧ s + 1 / 20 < t ∧ t < e - 1 / 20 := by
  intro idxs
  induction idxs with
  | nil =>
    intro last t h
    simp [valley_loop] at h
  | cons i rest ih =>
    intro last t h
    simp only [valley_loop] at h
    split_ifs at h
    rotate_left 3
    · rcases List.mem_cons.1 h with rfl | h'
      · exact ⟨⟨i, List.mem_cons_self i rest, rfl⟩, by assumption⟩
      · obtain ⟨⟨j, hj, hjeq⟩, hb⟩ := ih _ t h'
        exact ⟨⟨j, List.mem_cons_of_mem i hj, hjeq⟩, hb⟩
    all_goals
      obtain ⟨⟨j, hj, hjeq⟩, hb⟩ := ih _ t h
      exact ⟨⟨j, List.mem_cons_of_mem i hj, hjeq⟩, hb⟩

theorem valley_loop_sorted (rmsN : List ℚ) (s e st d : ℚ) (ws : Nat) (md : Int)
    (hst : 0 < st) :
    ∀ (k i0 : Nat) (last : Int),
      (valley_loop rmsN s e st d ws md (List.range' i0 k) last).Pairwise (· < ·) := by
  intro k
  induction k with
  | zero =>
    intro i0 last
    simp [List.range', valley_loop]
  | succ n ih =>
    intro i0 last
    rw [List.range'_succ]
    simp only [valley_loop]
    split_ifs
    rotate_left 3
    · refine List.pairwise_cons.2 ⟨?_, ih _ _⟩
      intro t ht
      obtain ⟨⟨j, hj, rfl⟩, -, -⟩ := valley_loop_mem rmsN s e st d ws md _ _ t ht
      have hji : i0 < j := by
        have := (List.mem_range'_1.1 hj).1
        omega
      have hmul : (i0 : ℚ) * st < (j : ℚ) * st := by
        apply mul_lt_mul_of_pos_right _ hst
        exact_mod_cast hji
      linarith
    all_goals exact ih _ _

theorem find_energy_valleys_props (rms_of : List ℚ → List ℚ) (y : List ℚ)
    (sr s e sp dp : ℚ) (hsr : 0 < sr) :
    (find_energy_valleys rms_of y sr s e sp dp).Pairwise (· < ·) ∧
    ∀ v ∈ find_energy_valleys rms_of y sr s e sp dp,
      s + 1 / 20 < v ∧ v < e - 1 / 20 := by
  simp only [find_energy_valleys]
  split_ifs
  · exact ⟨List.Pairwise.nil, by intro v hv; simp at hv⟩
  · have hstep : (0 : ℚ) < 256 / sr := by positivity
    refine ⟨valley_loop_sorted _ s e _ _ _ _ hstep _ _ _, ?_⟩
    intro v hv
    exact (valley_loop_mem _ s e _ _ _ _ _ _ v hv).2
  · exact ⟨List.Pairwise.nil, by intro v hv; simp at hv⟩

theorem chain_head_le_mem (b : ℚ) (l : List ℚ) (h : List.Chain' (· < ·) (b :: l)) :
    ∀ x ∈ b :: l, b ≤ x := by
  have hp : List.Pairwise (· < ·) (b :: l) := List.chain'_iff_pairwise.1 h
  intro x hx
  rcases List.mem_cons.1 hx with rfl | hx'
  · exact le_refl x
  · exact le_of_lt ((List.pairwise_cons.1 hp).1 x hx')

theorem chain_of_valleys (a L : ℚ) (vs : List ℚ) (hL : a < L)
    (hs : vs.Pairwise (· < ·)) (hb : ∀ v ∈ vs, a + 1 / 20 < v ∧ v < L - 1 / 20) :
    List.Chain' (· < ·) (a :: vs ++ [L]) := by
  apply List.chain'_iff_pairwise.2
  apply List.pairwise_cons.2
  constructor
  · intro v hv
    rcases List.mem_append.1 hv with hv' | hv'
    · have := (hb v hv').1
      linarith
    · have : v = L := by simpa using hv'
      subst this
      exact hL
  · apply List.pairwise_append.2
    refine ⟨hs, List.pairwise_singleton _ _, ?_⟩
    intro v hv w hw
    have : w = L := by simpa using hw
    subst this
    have := (hb v hv).2
    linarith

theorem consecutive_pairs_props :
    ∀ (mid : List ℚ) (a L : ℚ), List.Chain' (· < ·) (a :: mid ++ [L]) →
      (∀ x ∈ consecutive_pairs (a :: mid ++ [L]),
        a ≤ x.1 ∧ x.1 + x.2 ≤ L ∧ 0 < x.2) ∧
      (consecutive_pairs (a :: mid ++ [L])).Pairwise (fun p q => p.1 + p.2 ≤ q.1) := by
  intro mid
  induction mid with
  | nil =>
    intro a L h
    have hab : a < L := (List.chain'_cons.1 h).1
    constructor
    · intro x hx
      have hx' : x = (a, L - a) := by simpa [consecutive_pairs] using hx
      subst hx'
      refine ⟨le_refl _, by simp, by simpa using hab⟩
    · simp [consecutive_pairs]
  | cons b ms ih =>
    intro a L h
    have h1 : a < b := (List.chain'_cons.1 h).1
    have h2 : List.Chain' (· < ·) (b :: ms ++ [L]) := (List.chain'_cons.1 h).2
    obtain ⟨hmem, hpw⟩ := ih b L h2
    have hbL : b ≤ L := chain_head_le_mem b (ms ++ [L]) h2 L (by simp)
    rw [show consecutive_pairs (a :: (b :: ms) ++ [L]) =
      (a, b - a) :: consecutive_pairs (b :: ms ++ [L]) from rfl]
    constructor
    · intro x hx
      rcases List.mem_cons.1 hx with rfl | hx'
      · exact ⟨le_refl _, by simpa using hbL, by simpa using h1⟩
      · obtain ⟨hx1, hx2, hx3⟩ := hmem x hx'
        exact ⟨le_trans (le_of_lt h1) hx1, hx2, hx3⟩
    · refine List.pairwise_cons.2 ⟨?_, hpw⟩
      intro q hq
      obtain ⟨hq1, -, -⟩ := hmem q hq
      show a + (b - a) ≤ q.1
      linarith

/-- Every block the splitter produces for a positive-duration segment stays
inside that segment, has positive sub-durations, and is internally ordered;
the whole split list is ordered whenever the input is. -/
theorem split_long_segments_good (rms_of : List ℚ → List ℚ) (y : List ℚ)
    (sr maxseg : ℚ) (hsr : 0 < sr) :
    ∀ pairs : List (ℚ × ℚ),
      pairs.Pairwise (fun p q => p.1 + p.2 ≤ q.1) →
      (∀ p ∈ pairs, 0 < p.2) →
      (split_long_segments rms_of y sr maxseg pairs).Pairwise
        (fun p q => p.1 + p.2 ≤ q.1) ∧
      (∀ x ∈ split_long_segments rms_of y sr maxseg pairs,
        ∃ q ∈ pairs, q.1 ≤ x.1 ∧ x.1 + x.2 ≤ q.1 + q.2 ∧ 0 < x.2) := by
  intro pairs
  induction pairs with
  | nil =>
    intro _ _
    exact ⟨List.Pairwise.nil, by intro x hx; simp [split_long_segments] at hx⟩
  | cons p rest ih =>
    intro hpw hpos
    have hp2 : 0 < p.2 := hpos p (List.mem_cons_self _ _)
    have hrestpos : ∀ q ∈ rest, 0 < q.2 := fun q hq => hpos q (List.mem_cons_of_mem _ hq)
    have hrestpw : rest.Pairwise (fun p q => p.1 + p.2 ≤ q.1) := (List.pairwise_cons.1 hpw).2
    have hcross : ∀ q ∈ rest, p.1 + p.2 ≤ q.1 := (List.pairwise_cons.1 hpw).1
    obtain ⟨ihpw, ihmem⟩ := ih hrestpw hrestpos
    -- the block produced for `p`
    have hblock : (∀ x ∈ (if p.2 ≤ maxseg then [p] else
          match find_energy_valleys rms_of y sr p.1 (p.1 + p.2) (2 / 25) (3 / 10) with
          | [] => [p]
          | v :: vs => consecutive_pairs (p.1 :: (v :: vs) ++ [p.1 + p.2])),
        p.1 ≤ x.1 ∧ x.1 + x.2 ≤ p.1 + p.2 ∧ 0 < x.2) ∧
        (if p.2 ≤ maxseg then [p] else
          match find_energy_valleys rms_of y sr p.1 (p.1 + p.2) (2 / 25) (3 / 10) with
          | [] => [p]
          | v :: vs => consecutive_pairs (p.1 :: (v :: vs) ++ [p.1 + p.2])).Pairwise
          (fun p q => p.1 + p.2 ≤ q.1) := by
      by_cases hshort : p.2 ≤ maxseg
      · rw [if_pos hshort]
        constructor
        · intro x hx
          have : x = p := by simpa using hx
          subst this
          exact ⟨le_refl _, by linarith, hp2⟩
        · simp
      · rw [if_neg hshort]
        obtain ⟨hvs, hvb⟩ := find_energy_valleys_props rms_of y sr p.1 (p.1 + p.2)
          (2 / 25) (3 / 10) hsr
        cases hv : find_energy_valleys rms_of y sr p.1 (p.1 + p.2) (2 / 25) (3 / 10) with
        | nil =>
          constructor
          · intro x hx
            have : x = p := by simpa using hx
            subst this
            exact ⟨le_refl _, by linarith, hp2⟩
          · simp
        | cons v vs =>
          rw [hv] at hvs hvb
          have hchain : List.Chain' (· < ·) (p.1 :: (v :: vs) ++ [p.1 + p.2]) :=
            chain_of_valleys p.1 (p.1 + p.2) (v :: vs) (by linarith) hvs hvb
          exact consecutive_pairs_props (v :: vs) p.1 (p.1 + p.2) hchain
    have hsplit : split_long_segments rms_of y sr maxseg (p :: rest) =
        (if p.2 ≤ maxseg then [p] else
          match find_energy_valleys rms_of y sr p.1 (p.1 + p.2) (2 / 25) (3 / 10) with
          | [] => [p]
          | v :: vs => consecutive_pairs (p.1 :: (v :: vs) ++ [p.1 + p.2])) ++
        split_long_segments rms_of y sr maxseg rest := by
      simp only [split_long_segments, List.flatMap_cons]
    rw [hsplit]
    constructor
    · apply List.pairwise_append.2
      refine ⟨hblock.2, ihpw, ?_⟩
      intro x hx z hz
      obtain ⟨-, hx2, -⟩ := hblock.1 x hx
      obtain ⟨q, hq, hq1, -, -⟩ := ihmem z hz
      have := hcross q hq
      linarith
    · intro x hx
      rcases List.mem_append.1 hx with hx' | hx'
      · obtain ⟨h1, h2, h3⟩ := hblock.1 x hx'
        exact ⟨p, List.mem_cons_self _ _, h1, h2, h3⟩
      · obtain ⟨q, hq, hqs⟩ := ihmem x hx'
        exact ⟨q, List.mem_cons_of_mem _ hq, hqs⟩

theorem derive_zip_good (ddur : ℚ) (hd : 0 < ddur) :
    ∀ onsets : List ℚ, List.Chain' (· < ·) onsets →
      (onsets.zip (derive_durations ddur onsets)).Pairwise
        (fun p q => p.1 + p.2 ≤ q.1) ∧
      ∀ p ∈ onsets.zip (derive_durations ddur onsets), 0 < p.2 := by
  intro onsets
  induction onsets with
  | nil =>
    intro _
    exact ⟨List.Pairwise.nil, by intro p hp; simp at hp⟩
  | cons a tl ih =>
    cases tl with
    | nil =>
      intro _
      constructor
      · simp [derive_durations]
      · intro p hp
        have : p = (a, ddur) := by simpa [derive_durations] using hp
        subst this
        exact hd
    | cons b rest =>
      intro h
      have h1 : a < b := (List.chain'_cons.1 h).1
      have h2 : List.Chain' (· < ·) (b :: rest) := (List.chain'_cons.1 h).2
      obtain ⟨ihpw, ihpos⟩ := ih h2
      show (((a, b - a) :: (b :: rest).zip (derive_durations ddur (b :: rest))).Pairwise
        (fun p q => p.1 + p.2 ≤ q.1)) ∧
        ∀ p ∈ (a, b - a) :: (b :: rest).zip (derive_durations ddur (b :: rest)), 0 < p.2
      constructor
      · apply List.pairwise_cons.2
        refine ⟨?_, ihpw⟩
        intro q hq
        have hq1 : q.1 ∈ b :: rest := (List.of_mem_zip hq).1
        have hble : b ≤ q.1 := chain_head_le_mem b rest h2 q.1 hq1
        show a + (b - a) ≤ q.1
        linarith
      · intro p hp
        rcases List.mem_cons.1 hp with rfl | hp'
        · show (0 : ℚ) < b - a
          linarith
        · exact ihpos p hp'

theorem filter_low_energy_good (sqrt_fn : ℚ → ℚ) (global_rms y : List ℚ)
    (sr frac ms : ℚ) (l : List (ℚ × ℚ))
    (hpw : l.Pairwise (fun p q => p.1 + p.2 ≤ q.1)) (hpos : ∀ p ∈ l, 0 < p.2) :
    (filter_low_energy_segments sqrt_fn global_rms y sr frac ms l).Pairwise
      (fun p q => p.1 + p.2 ≤ q.1) ∧
    ∀ p ∈ filter_low_energy_segments sqrt_fn global_rms y sr frac ms l, 0 < p.2 := by
  by_cases hnil : l = []
  · subst hnil
    exact ⟨List.Pairwise.nil, by intro p hp; simp [filter_low_energy_segments] at hp⟩
  · simp only [filter_low_energy_segments, if_neg hnil]
    exact ⟨hpw.filter _, fun p hp => hpos p (List.mem_filter.1 hp).1⟩

theorem map_range_chain {α : Type} (n : Nat) (g : Nat → α) (R : α → α → Prop)
    (h : ∀ i, i + 1 < n → R (g i) (g (i + 1))) :
    List.Chain' R ((List.range n).map g) := by
  rw [List.chain'_iff_get]
  intro i hi
  have hlen : ((List.range n).map g).length = n := by simp
  rw [hlen] at hi
  have h1 : i < n := by omega
  have h2 : i + 1 < n := by omega
  have e1 : ((List.range n).map g).get ⟨i, by rw [hlen]; omega⟩ = g i := by
    rw [List.get_eq_getElem, List.getElem_map, List.getElem_range]
  have e2 : ((List.range n).map g).get ⟨i + 1, by rw [hlen]; omega⟩ = g (i + 1) := by
    rw [List.get_eq_getElem, List.getElem_map, List.getElem_range]
  rw [e1, e2]
  exact h i h2

/-- Claim C7. For every strictly increasing onset list (and any waveform,
sample rate > 0, and positive default duration), the refined segment list the
formatter produces — durations derived from onsets, long segments split at
energy valleys, low-energy segments filtered — is time-ordered and
non-overlapping (`start + duration ≤ next start`), and every segment has a
strictly positive duration. -/
theorem format_segments_time_ordered (rms_of : List ℚ → List ℚ) (sqrt_fn : ℚ → ℚ)
    (global_rms : List ℚ) (f0 : List (ℚ × Option ℚ)) (phon : List String) (y : List ℚ)
    (sr default_dur maxseg frac maxshort sthr : ℚ) (sw : Nat) (susthr : ℚ)
    (onset_times : List ℚ)
    (hsr : 0 < sr) (hd : 0 < default_dur) (hmono : List.Chain' (· < ·) onset_times) :
    List.Chain' (fun a b : Segment => a.time_start + a.duration ≤ b.time_start)
      (format_segments rms_of sqrt_fn global_rms f0 phon y sr default_dur maxseg frac
        maxshort sthr sw susthr onset_times) ∧
    ∀ s ∈ format_segments rms_of sqrt_fn global_rms f0 phon y sr default_dur maxseg frac
        maxshort sthr sw susthr onset_times, 0 < s.duration := by
  obtain ⟨hpw0, hpos0⟩ := derive_zip_good default_dur hd onset_times hmono
  obtain ⟨hpw1, hmem1⟩ := split_long_segments_good rms_of y sr maxseg hsr _ hpw0 hpos0
  have hpos1 : ∀ x ∈ split_long_segments rms_of y sr maxseg
      (onset_times.zip (derive_durations default_dur onset_times)), 0 < x.2 := by
    intro x hx
    obtain ⟨q, -, -, -, hq⟩ := hmem1 x hx
    exact hq
  obtain ⟨hpw2, hpos2⟩ := filter_low_energy_good sqrt_fn global_rms y sr frac maxshort
    _ hpw1 hpos1
  have hpw2' : (refine_pairs rms_of sqrt_fn global_rms y sr default_dur maxseg frac
      maxshort onset_times).Pairwise (fun p q => p.1 + p.2 ≤ q.1) := hpw2
  have hpos2' : ∀ p ∈ refine_pairs rms_of sqrt_fn global_rms y sr default_dur maxseg frac
      maxshort onset_times, 0 < p.2 := hpos2
  constructor
  · apply map_range_chain
    intro i hi
    have hi1 : i < (refine_pairs rms_of sqrt_fn global_rms y sr default_dur maxseg frac
        maxshort onset_times).length := by omega
    show (refine_pairs rms_of sqrt_fn global_rms y sr default_dur maxseg frac
        maxshort onset_times |>.map (fun p => p.1)).getD i 0 +
      (refine_pairs rms_of sqrt_fn global_rms y sr default_dur maxseg frac
        maxshort onset_times |>.map (fun p => p.2)).getD i 0 ≤
      (refine_pairs rms_of sqrt_fn global_rms y sr default_dur maxseg frac
        maxshort onset_times |>.map (fun p => p.1)).getD (i + 1) 0
    rw [List.getD_eq_getElem _ _ (by simpa using hi1), List.getD_eq_getElem _ _
      (by simpa using hi1), List.getD_eq_getElem _ _ (by simpa using hi),
      List.getElem_map, List.getElem_map, List.getElem_map]
    exact List.pairwise_iff_getElem.1 hpw2' i (i + 1) hi1 hi (by omega)
  · intro s hs
    obtain ⟨i, hi, rfl⟩ := List.mem_map.1 hs
    have hi1 : i < (refine_pairs rms_of sqrt_fn global_rms y sr default_dur maxseg frac
        maxshort onset_times).length := List.mem_range.1 hi
    show 0 < (refine_pairs rms_of sqrt_fn global_rms y sr default_dur maxseg frac
        maxshort onset_times |>.map (fun p => p.2)).getD i 0
    rw [List.getD_eq_getElem _ _ (by simpa using hi1), List.getElem_map]
    exact hpos2' _ (List.getElem_mem hi1)

/-- Witness for C7 at a concrete input (two onsets, empty waveform). -/
theorem format_segments_time_ordered_witness :
    List.Chain' (fun a b : Segment => a.time_start + a.duration ≤ b.time_start)
      (format_segments (fun _ => []) id [] [] [] [] 1 (1 / 5) (1 / 2) (3 / 20) (3 / 20)
        (6 / 5) 5 (2 / 5) [0, 1]) ∧
    ∀ s ∈ format_segments (fun _ => []) id [] [] [] [] 1 (1 / 5) (1 / 2) (3 / 20) (3 / 20)
        (6 / 5) 5 (2 / 5) [0, 1], 0 < s.duration :=
  format_segments_time_ordered (fun _ => []) id [] [] [] [] 1 (1 / 5) (1 / 2) (3 / 20)
    (3 / 20) (6 / 5) 5 (2 / 5) [0, 1] (by norm_num) (by norm_num)
    (List.chain'_cons.2 ⟨by norm_num, List.chain'_singleton 1⟩)
